import Mathlib

/-!
Shallow embedding of the ck2audit PDX-script parsing engine, for checking the
natural-language specification against the code.

Sources embedded (from src/):
* token kinds               — src/core/token.cpp, src/core/pdx.hpp `token`
* plexer 3-state lookahead  — src/core/main.cpp `pdx::plexer::next`,
                              `next_expected`, `save_and_lookahead`
* block/list recursive descent (latest snapshot)
                            — src/core/main.cpp `pdx::block::block`, `pdx::list::list`
* block/list recursive descent (earlier snapshot with DECIMAL support)
                            — src/unnamed/part_001 `block::block`, `list::list`
* fixed-point decimal       — src/core/fp_decimal.hpp `fp_decimal<D>`
* decimal printing          — src/core/fp_decimal.hpp `operator<<`
* date comparison           — src/core/date.hpp `date::operator<`
* date construction         — src/core/main.cpp `pdx::date::date`
* string arena              — src/unnamed/part_003 `cstr_pool::copy_c_str`

Machine integers are modelled as Nat/Int; where a conversion narrows (int16,
int8 stores in `date`) the wrap is made explicit.  Fallible code (C++ `throw`)
is modelled with `Except`.
-/

/-- Character-to-digit value, as the C code computes `*p - '0'`. -/
def digitVal (c : Char) : Int :=
  (c.toNat : Int) - 48

/-- Digit test for '0'..'9' (the DECIMAL/INTEGER token character class). -/
def isDigitCh (c : Char) : Bool :=
  48 ≤ c.toNat && c.toNat ≤ 57

/-- Numeric value of a big-endian digit-character list (usual Horner fold). -/
def charsVal (cs : List Char) : Int :=
  cs.foldl (fun a c => 10 * a + digitVal c) 0

/-- Value of the longest digit prefix, as `atoi` accumulates after the sign. -/
def digitsPrefixVal (cs : List Char) : Int :=
  charsVal (cs.takeWhile isDigitCh)

/-- Embedding of C `atoi` on token text (optional sign, then digit prefix;
token text never carries leading whitespace). -/
def atoi (s : String) : Int :=
  match s.data with
  | '-' :: rest => -(digitsPrefixVal rest)
  | '+' :: rest => digitsPrefixVal rest
  | cs => digitsPrefixVal cs

/-- Token kinds, in the order of `token::TYPE_MAP` (src/core/token.cpp). -/
inductive TokKind where
  | END | INTEGER | EQ | OPEN | CLOSE | STR | QSTR | DATE | QDATE | COMMENT | DECIMAL | FAIL
deriving DecidableEq, Repr

/-- A token as the parser consumes it: kind plus borrowed text. -/
structure PToken where
  type : TokKind
  text : String
deriving DecidableEq, Repr

/-- Lookahead machine states of `pdx::plexer` (src/core/pdx.hpp). -/
inductive PlexState where
  | NORMAL | TOK1 | TOK2
deriving DecidableEq, Repr

/-- The parser-side lexer: the underlying token stream plus the two saved
lookahead tokens and the replay state.  `tok1`/`tok2` model the two
`saved_token` buffers (128-byte `buf`, holding text of at most 127 bytes). -/
structure Plexer where
  state : PlexState
  tok1 : PToken
  tok2 : PToken
  stream : List PToken
deriving DecidableEq, Repr

/-- Fatal parse errors: each corresponds to one `throw va_error(...)` site. -/
inductive PErr where
  | unexpectedEOF
  | unrecognizedToken
  | unexpectedToken (t : TokKind)
  | expectedToken (want got : TokKind)
  | unmatchedBrace
  | malformedDate
  | outOfFuel
deriving DecidableEq, Repr

/-- One pull of `lexer::next` plus the END/FAIL/COMMENT filtering loop of
`plexer::next`, in the NORMAL state: comments are skipped, END is only legal
when `eofOk`, FAIL always throws.  An exhausted stream yields END (the
scanner signals EOF). -/
def pnextNormal (eofOk : Bool) : List PToken → Except PErr (PToken × List PToken)
  | [] => if eofOk then .ok (⟨.END, ""⟩, []) else .error .unexpectedEOF
  | t :: ts =>
    if t.type = .END then (if eofOk then .ok (t, ts) else .error .unexpectedEOF)
    else if t.type = .FAIL then .error .unrecognizedToken
    else if t.type = .COMMENT then pnextNormal eofOk ts
    else .ok (t, ts)

/-- Loop body of `plexer::next`, common to every state arm: END is only
legal when `eofOk`, FAIL always throws, COMMENT continues the loop (with
`cont` the rest of the loop). -/
def tokStep (t : PToken) (q : Plexer) (eofOk : Bool)
    (cont : Except PErr (PToken × Plexer)) : Except PErr (PToken × Plexer) :=
  if t.type = .END then (if eofOk then .ok (t, q) else .error .unexpectedEOF)
  else if t.type = .FAIL then .error .unrecognizedToken
  else if t.type = .COMMENT then cont
  else .ok (t, q)

/-- Loop iterations of `plexer::next` that pull from the scanner (NORMAL
state; the loop stays in NORMAL from here on). -/
def pnextPull (p : Plexer) (eofOk : Bool) : Except PErr (PToken × Plexer) :=
  match pnextNormal eofOk p.stream with
  | .error e => .error e
  | .ok (t, ts) => .ok (t, { p with stream := ts })

/-- The TOK2 arm of the `plexer::next` loop: replay `tok2`, drop to NORMAL;
if the replayed token is a comment the loop continues pulling fresh tokens. -/
def pnextFrom2 (p : Plexer) (eofOk : Bool) : Except PErr (PToken × Plexer) :=
  let p1 : Plexer := { p with state := .NORMAL }
  tokStep p.tok2 p1 eofOk (pnextPull p1 eofOk)

/-- The TOK1 arm of the `plexer::next` loop: replay `tok1`, move to TOK2. -/
def pnextFrom1 (p : Plexer) (eofOk : Bool) : Except PErr (PToken × Plexer) :=
  let p1 : Plexer := { p with state := .TOK2 }
  tokStep p.tok1 p1 eofOk (pnextFrom2 p1 eofOk)

/-- Embedding of `pdx::plexer::next(token*, bool eof_ok)` — the replay loop
unrolled over its three states (TOK1 then TOK2 then NORMAL). -/
def pnext (p : Plexer) (eofOk : Bool) : Except PErr (PToken × Plexer) :=
  match p.state with
  | .NORMAL => pnextPull p eofOk
  | .TOK1 => pnextFrom1 p eofOk
  | .TOK2 => pnextFrom2 p eofOk

/-- Embedding of `pdx::plexer::next_expected(token*, uint type)`. -/
def next_expected (p : Plexer) (k : TokKind) : Except PErr (PToken × Plexer) :=
  match pnext p false with
  | .error e => .error e
  | .ok (t, p1) => if t.type = k then .ok (t, p1) else .error (.expectedToken k t.type)

/-- Embedding of `pdx::plexer::save_and_lookahead(token*)`: save the current
token into `tok1`, fetch one more into `tok2`, then switch to replay mode. -/
def save_and_lookahead (p : Plexer) (cur : PToken) : Except PErr (PToken × Plexer) :=
  let p1 : Plexer := { p with tok1 := cur }
  match pnext p1 false with
  | .error e => .error e
  | .ok (t2, p2) => .ok (t2, { p2 with tok2 := t2, state := .TOK1 })

/-- Packed date value of `pdx::date` (src/core/pdx.hpp: int16 year, int8
month/day); narrowing stores wrap explicitly. -/
structure PDate where
  y : Int
  m : Int
  d : Int
deriving DecidableEq, Repr

/-- Wrap of an int to the signed 16-bit store in `date::y`. -/
def wrap16 (i : Int) : Int := (i + 32768).emod 65536 - 32768

/-- Wrap of an int to the signed 8-bit stores in `date::m` / `date::d`. -/
def wrap8 (i : Int) : Int := (i + 128).emod 256 - 128

/-- Digit-prefix accumulation of `atoi` over a character list (after sign). -/
def atoiChars (cs : List Char) : Int :=
  match cs with
  | '-' :: rest => -(digitsPrefixVal rest)
  | '+' :: rest => digitsPrefixVal rest
  | _ => digitsPrefixVal cs

/-- Field splitting of `boost::char_separator(". ")`: split on '.' or ' ',
dropping empty fields, as used by `pdx::date::date` (src/core/main.cpp). -/
def splitDSAux : List Char → List Char → List (List Char)
  | [], cur => if cur.isEmpty then [] else [cur.reverse]
  | c :: r, cur =>
    if c = '.' ∨ c = ' ' then
      if cur.isEmpty then splitDSAux r [] else cur.reverse :: splitDSAux r []
    else splitDSAux r (c :: cur)

/-- Fields of a date literal under the boost tokenizer. -/
def splitDS (cs : List Char) : List (List Char) := splitDSAux cs []

/-- Embedding of `pdx::date::date(const char*, plexer*)` (src/core/main.cpp
lines 332-356): exactly three '.'-separated fields, each read with `atoi`,
else a fatal malformed-date error. -/
def dateFromString (s : String) : Except PErr PDate :=
  match splitDS s.data with
  | [a, b, c] => .ok ⟨wrap16 (atoiChars a), wrap8 (atoiChars b), wrap8 (atoiChars c)⟩
  | _ => .error .malformedDate

/-- Parse-tree values of the latest snapshot (`pdx::obj`, src/core/pdx.hpp):
string, integer, date, owned block (statement list), owned list. -/
inductive ObjM where
  | str (s : String)
  | int (i : Int)
  | datev (d : PDate)
  | blk (b : List (ObjM × ObjM))
  | lst (l : List ObjM)
deriving Repr

mutual

/-- Embedding of the statement loop of `pdx::block::block(plexer&, is_root,
is_save)` (src/core/main.cpp lines 109-194), statements consed in parse
order.  The empty-block arm mirrors the source's `continue` at line 156,
which skips the `vec.emplace_back(key, val)` at line 193: the statement with
the empty-block value is dropped. -/
def blockRun (fuel : Nat) (p : Plexer) (isRoot isSave : Bool) :
    Except PErr (List (ObjM × ObjM) × Plexer) :=
  match fuel with
  | 0 => .error .outOfFuel
  | fuel + 1 => do
    let (tok, p) ← pnext p isRoot
    if tok.type = .END then
      .ok ([], p)
    else if tok.type = .CLOSE then
      if isRoot && !isSave then .error .unmatchedBrace
      else .ok ([], p)
    else do
      let key : ObjM ←
        if tok.type = .STR then .ok (.str tok.text)
        else if tok.type = .DATE then
          match dateFromString tok.text with
          | .error e => .error e
          | .ok d => .ok (.datev d)
        else if tok.type = .INTEGER then .ok (.int (atoi tok.text))
        else .error (.unexpectedToken tok.type)
      let (_, p) ← next_expected p .EQ
      let (tok, p) ← pnext p false
      if tok.type = .OPEN then do
        let (tok, p) ← pnext p false
        if tok.type = .CLOSE then
          blockRun fuel p isRoot isSave
        else do
          let dblOpen : Bool := tok.type == .OPEN
          let (tok, p) ← save_and_lookahead p tok
          if tok.type != .EQ || dblOpen then do
            let (l, p) ← listRun fuel p
            let (rest, p) ← blockRun fuel p isRoot isSave
            .ok ((key, .lst l) :: rest, p)
          else do
            let (b, p) ← blockRun fuel p false false
            let (rest, p) ← blockRun fuel p isRoot isSave
            .ok ((key, .blk b) :: rest, p)
      else do
        let val : ObjM ←
          if tok.type = .STR ∨ tok.type = .QSTR then .ok (.str tok.text)
          else if tok.type = .QDATE ∨ tok.type = .DATE then
            match dateFromString tok.text with
            | .error e => .error e
            | .ok d => .ok (.datev d)
          else if tok.type = .INTEGER then .ok (.int (atoi tok.text))
          else .error (.unexpectedToken tok.type)
        let (rest, p) ← blockRun fuel p isRoot isSave
        .ok ((key, val) :: rest, p)

/-- Embedding of `pdx::list::list(plexer&)` (src/core/main.cpp lines
245-263): strings, integers and nested blocks until the closing brace. -/
def listRun (fuel : Nat) (p : Plexer) : Except PErr (List ObjM × Plexer) :=
  match fuel with
  | 0 => .error .outOfFuel
  | fuel + 1 => do
    let (t, p) ← pnext p false
    if t.type = .QSTR ∨ t.type = .STR then do
      let (rest, p) ← listRun fuel p
      .ok (.str t.text :: rest, p)
    else if t.type = .INTEGER then do
      let (rest, p) ← listRun fuel p
      .ok (.int (atoi t.text) :: rest, p)
    else if t.type = .OPEN then do
      let (b, p) ← blockRun fuel p false false
      let (rest, p) ← listRun fuel p
      .ok (.blk b :: rest, p)
    else if t.type ≠ .CLOSE then .error (.unexpectedToken t.type)
    else .ok ([], p)

end

/-- Fresh plexer over a token stream (parser constructor state: NORMAL, both
saved tokens default-initialised to END). -/
def mkPlexer (stream : List PToken) : Plexer :=
  ⟨.NORMAL, ⟨.END, ""⟩, ⟨.END, ""⟩, stream⟩

/-- Root-level parse (latest snapshot): the `parser` constructor builds
`block(*this, true, is_save)`; savegame roots first consume the header
string token. -/
def parseRoot (fuel : Nat) (stream : List PToken) (isSave : Bool) :
    Except PErr (List (ObjM × ObjM) × Plexer) := do
  let p := mkPlexer stream
  let p ←
    if isSave then do
      let (_, p1) ← next_expected p .STR
      pure p1
    else pure p
  blockRun fuel p true isSave

/-- Parse-tree values of the earlier snapshot (`pdx::obj`, src/core/pdx.h):
this revision tags DATE and DECIMAL values but stores their raw token text
(`data.s = strdup(tok.text)`). -/
inductive ObjP where
  | str (s : String)
  | int (i : Int)
  | dateS (s : String)
  | decS (s : String)
  | blk (b : List (ObjP × ObjP))
  | lst (l : List ObjP)
deriving Repr

mutual

/-- Embedding of the statement loop of `block::block` in src/unnamed/part_001
(lines 14-130).  This revision emplaces the statement *before* parsing the
key, so the empty-block `continue` (line 79) retains the statement, its
value pointing at the shared `EMPTY_BLOCK` (modelled as an empty block);
DATE keys/values and DECIMAL values store their raw text. -/
def blockP1Run (fuel : Nat) (p : Plexer) (isRoot isSave : Bool) :
    Except PErr (List (ObjP × ObjP) × Plexer) :=
  match fuel with
  | 0 => .error .outOfFuel
  | fuel + 1 => do
    let (tok, p) ← pnext p isRoot
    if tok.type = .END then
      .ok ([], p)
    else if tok.type = .CLOSE then
      if isRoot && !isSave then .error .unmatchedBrace
      else .ok ([], p)
    else do
      let key : ObjP ←
        if tok.type = .STR then .ok (.str tok.text)
        else if tok.type = .DATE then .ok (.dateS tok.text)
        else if tok.type = .INTEGER then .ok (.int (atoi tok.text))
        else .error (.unexpectedToken tok.type)
      let (_, p) ← next_expected p .EQ
      let (tok, p) ← pnext p false
      if tok.type = .OPEN then do
        let (tok, p) ← pnext p false
        if tok.type = .CLOSE then do
          let (rest, p) ← blockP1Run fuel p isRoot isSave
          .ok ((key, .blk []) :: rest, p)
        else do
          let dblOpen : Bool := tok.type == .OPEN
          let (tok, p) ← save_and_lookahead p tok
          if tok.type != .EQ || dblOpen then do
            let (l, p) ← listP1Run fuel p
            let (rest, p) ← blockP1Run fuel p isRoot isSave
            .ok ((key, .lst l) :: rest, p)
          else do
            let (b, p) ← blockP1Run fuel p false false
            let (rest, p) ← blockP1Run fuel p isRoot isSave
            .ok ((key, .blk b) :: rest, p)
      else do
        let val : ObjP ←
          if tok.type = .STR ∨ tok.type = .QSTR then .ok (.str tok.text)
          else if tok.type = .QDATE ∨ tok.type = .DATE then .ok (.dateS tok.text)
          else if tok.type = .INTEGER then .ok (.int (atoi tok.text))
          else if tok.type = .DECIMAL then .ok (.decS tok.text)
          else .error (.unexpectedToken tok.type)
        let (rest, p) ← blockP1Run fuel p isRoot isSave
        .ok ((key, val) :: rest, p)

/-- Embedding of `list::list` in src/unnamed/part_001 (lines 180-211):
strings, integers, decimals (stored as raw text) and nested blocks. -/
def listP1Run (fuel : Nat) (p : Plexer) : Except PErr (List ObjP × Plexer) :=
  match fuel with
  | 0 => .error .outOfFuel
  | fuel + 1 => do
    let (t, p) ← pnext p false
    if t.type = .QSTR ∨ t.type = .STR then do
      let (rest, p) ← listP1Run fuel p
      .ok (.str t.text :: rest, p)
    else if t.type = .INTEGER then do
      let (rest, p) ← listP1Run fuel p
      .ok (.int (atoi t.text) :: rest, p)
    else if t.type = .DECIMAL then do
      let (rest, p) ← listP1Run fuel p
      .ok (.decS t.text :: rest, p)
    else if t.type = .OPEN then do
      let (b, p) ← blockP1Run fuel p false false
      let (rest, p) ← listP1Run fuel p
      .ok (.blk b :: rest, p)
    else if t.type ≠ .CLOSE then .error (.unexpectedToken t.type)
    else .ok ([], p)

end

/-- Root-level parse, earlier snapshot (src/unnamed/part_001). -/
def parseP1Root (fuel : Nat) (stream : List PToken) (isSave : Bool) :
    Except PErr (List (ObjP × ObjP) × Plexer) := do
  let p := mkPlexer stream
  let p ←
    if isSave then do
      let (_, p1) ← next_expected p .STR
      pure p1
    else pure p
  blockP1Run fuel p true isSave

/-- Diagnostic severities of `pdx::error` (src/core/error_queue.hpp). -/
inductive ErrPrio where
  | NORMAL
  | WARNING
deriving DecidableEq, Repr

/-- Scale of `fp_decimal<D>`: `exp10<D>::value`, i.e. 10^D. -/
def fp_scale (D : Nat) : Int := 10 ^ D

/-- Upper integral bound of `fp_decimal<D>`:
`(INT32_MAX - scale - INT32_MAX % scale) / scale` with C truncating
division/remainder (src/core/fp_decimal.hpp line 68). -/
def integral_max (D : Nat) : Int :=
  (2147483647 - fp_scale D - Int.tmod 2147483647 (fp_scale D)).tdiv (fp_scale D)

/-- Lower integral bound of `fp_decimal<D>`:
`(INT32_MIN + scale - INT32_MIN % scale) / scale` with C truncating
division/remainder (src/core/fp_decimal.hpp line 69). -/
def integral_min (D : Nat) : Int :=
  ((-2147483648) + fp_scale D - Int.tmod (-2147483648) (fp_scale D)).tdiv (fp_scale D)

/-- Split a character list at the first '.', as `strchr(src, '.')` does: the
pair is (characters before the dot, the dot and everything after it). -/
def breakAtDot : List Char → List Char × List Char
  | [] => ([], [])
  | c :: r =>
    if c = '.' then ([], c :: r)
    else
      let (a, b) := breakAtDot r
      (c :: a, b)

/-- Integral-part accumulation of `fp_decimal<D>::fp_decimal` (lines
142-153): iterate from the digit before the radix point leftwards, adding
`power * digit` and multiplying `power` by 10.  The fold carries
(power, accumulator) and processes the rightmost digit first. -/
def intLoopVal (cs : List Char) : Int :=
  (cs.foldr (fun c pa => (pa.1 * 10, pa.2 + pa.1 * digitVal c)) ((1 : Int), (0 : Int))).2

/-- Fractional-part loop of `fp_decimal<D>::fp_decimal` (lines 178-187): at
most D digits, digit i weighted by the table entry 10^(D-i-1); stops at the
string's end. -/
def fracLoop (D : Nat) : List Char → Nat → Int
  | [], _ => 0
  | c :: rest, i =>
    if i < D then 10 ^ (D - i - 1) * digitVal c + fracLoop D rest (i + 1)
    else 0

/-- Range/assert failures of the decimal constructor: `.range` is the fatal
`throw_range_error` (src/core/fp_decimal.hpp lines 157-158, 202-210);
`.assertFail` stands for the `assert`s that the token classifier is
supposed to make unreachable. -/
inductive FpErr where
  | range (i : Int)
  | assertFail
deriving DecidableEq, Repr

/-- Embedding of `fp_decimal<D>::fp_decimal(const char*, const parser*)`
(src/core/fp_decimal.hpp lines 121-199).  Returns the 32-bit mantissa and
the list of diagnostics the constructor emits; note the truncation-warning
branch is literally `if (false && *p)` in the source (lines 190-193), so no
diagnostic is ever produced. -/
def fp_parse (D : Nat) (s : String) : Except FpErr (Int × List ErrPrio) :=
  let cs := s.data
  let isNeg : Bool := cs.head? = some '-'
  let s_i := if isNeg then cs.tail else cs
  match breakAtDot s_i with
  | (_, []) => .error .assertFail
  | (intCs, _ :: fracCs) =>
    if intCs.isEmpty then .error .assertFail
    else if !intCs.all isDigitCh then .error .assertFail
    else
      let i := intLoopVal intCs
      if i < integral_min D ∨ i > integral_max D then .error (.range i)
      else if !(fracCs.take D).all isDigitCh then .error .assertFail
      else
        let f := fracLoop D fracCs 0
        let truncated : Bool := decide (D < fracCs.length)
        let diags : List ErrPrio := if false && truncated then [.WARNING] else []
        .ok ((if isNeg then i * (-(fp_scale D)) - f else i * fp_scale D + f), diags)

/-- Decimal digits of a natural number, least significant first, with fuel
(`fuel ≥ n` extracts every digit). -/
def natCharsAux : Nat → Nat → List Char
  | 0, _ => []
  | fuel + 1, n =>
    if n = 0 then [] else Nat.digitChar (n % 10) :: natCharsAux fuel (n / 10)

/-- Decimal digit characters of a natural number, most significant first
(the rendering `operator<<(std::ostream&, int)` produces). -/
def natChars (n : Nat) : List Char :=
  if n = 0 then ['0'] else (natCharsAux n n).reverse

/-- Decimal rendering of an int, with a leading '-' when negative. -/
def intChars (i : Int) : List Char :=
  if i < 0 then '-' :: natChars i.natAbs else natChars i.natAbs

/-- Embedding of `operator<<(std::ostream&, pdx::fp_decimal<D>)`
(src/core/fp_decimal.hpp lines 100-108): print `integral()` (`_m / scale`,
truncating), and when `abs(fractional())` (`abs(_m % scale)`) is non-zero a
'.' followed by that value zero-padded to width D. -/
def fp_print (D : Nat) (m : Int) : String :=
  let q := m.tdiv (fp_scale D)
  let f := (m.tmod (fp_scale D)).natAbs
  ⟨intChars q ++
    (if f ≠ 0 then
      '.' :: (List.replicate (D - (natChars f).length) '0' ++ natChars f)
    else [])⟩

/-- Unsigned part of the reference value of a decimal literal at scale 10^D:
for digit lists `I(.F)?` with at most D fractional digits, the value
`I * 10^D + F * 10^(D - |F|)`. -/
def decBody (D : Nat) (cs : List Char) : Option Int :=
  match breakAtDot cs with
  | (intCs, []) =>
    if intCs ≠ [] ∧ intCs.all isDigitCh then
      some (charsVal intCs * 10 ^ D)
    else none
  | (intCs, _ :: fracCs) =>
    if intCs ≠ [] ∧ intCs.all isDigitCh ∧ fracCs.all isDigitCh ∧ fracCs.length ≤ D then
      some (charsVal intCs * 10 ^ D + charsVal fracCs * 10 ^ (D - fracCs.length))
    else none

/-- Numeric value of a decimal literal at scale 10^D (specification-side
reference semantics, used to state the round-trip property): for
`-?I(.F)?` with at most D fractional digits the value times 10^D, i.e.
`sign * (I * 10^D + F * 10^(D - |F|))`. -/
def decLiteralValue (D : Nat) (s : String) : Option Int :=
  let cs0 := s.data
  let isNeg : Bool := cs0.head? = some '-'
  let cs := if isNeg then cs0.tail else cs0
  (decBody D cs).map fun v => if isNeg then -v else v

/-- Date fields as held by `class date` in src/core/date.hpp (uint16 year,
uint8 month/day). -/
structure DateH where
  y : Nat
  m : Nat
  d : Nat
deriving DecidableEq, Repr

/-- Embedding of `date::operator<` (src/core/date.hpp lines 28-36),
reproducing the comparison exactly as written — including line 32, which
compares `e._m < _y` (the other's month against this year). -/
def dateH_lt (a e : DateH) : Bool :=
  if a.y < e.y then true
  else if e.y < a.y then false
  else if a.m < e.m then true
  else if e.m < a.y then false
  else if a.d < e.d then true
  else if e.d < a.d then false
  else false

/-- Lexicographic order over (year, month, day) — the ordering the
specification states for dates. -/
def dateLexLt (a e : DateH) : Prop :=
  a.y < e.y ∨ (a.y = e.y ∧ (a.m < e.m ∨ (a.m = e.m ∧ a.d < e.d)))

instance (a e : DateH) : Decidable (dateLexLt a e) := by
  unfold dateLexLt
  infer_instance

/-- NUL terminator byte for the arena model. -/
def NULC : Char := '\x00'

/-- Maximum string length of `cstr_pool` (src/unnamed/part_003 line 7). -/
def MAX_STRLEN : Nat := 511

/-- The string arena `cstr_pool`: the forward_list of 512-byte chunks (head
is the front/current chunk, each chunk modelled as its byte contents) plus
`_end`, the offset one past the NUL of the last allocation in the front
chunk. -/
structure CPool where
  chunks : List (Nat → Char)
  endIdx : Nat

/-- Freshly constructed pool: `_end = MAX_STRLEN` and no chunks, which
forces the first allocation onto a fresh chunk. -/
def mkCPool : CPool := ⟨[], MAX_STRLEN⟩

/-- Stable address of an interned string: the chunk's age index (0 = oldest
chunk; `emplace_front` never renumbers old chunks) and a byte offset. -/
structure CPtr where
  chunk : Nat
  off : Nat
deriving DecidableEq, Repr

/-- Byte effect of `strcpy(dst, src)` at offset `off` of a chunk: the
characters of `src` followed by a NUL, other bytes untouched. -/
def writeCStr (c : Nat → Char) (off : Nat) (s : List Char) : Nat → Char :=
  fun j =>
    if off ≤ j ∧ j < off + s.length then s.getD (j - off) NULC
    else if j = off + s.length then NULC
    else c j

/-- Update of the front chunk (`_chunks.front().data`). -/
def updFront (chs : List (Nat → Char)) (f : (Nat → Char) → Nat → Char) :
    List (Nat → Char) :=
  match chs with
  | [] => []
  | c :: r => f c :: r

/-- Byte contents of a freshly emplaced chunk (value-initialised here; the
pool never reads bytes it has not written). -/
def zeroChunk : Nat → Char := fun _ => NULC

/-- The `std::runtime_error` thrown by `copy_c_str` on oversized input. -/
inductive PoolErr where
  | tooLong
deriving DecidableEq, Repr

/-- Embedding of `cstr_pool::copy_c_str(const char*)` (src/unnamed/part_003
lines 25-44): reject strings longer than MAX_STRLEN; when the front chunk
lacks room, emplace a fresh front chunk and restart at offset 0; copy the
string at `_end` and bump `_end` past its NUL. -/
def copy_c_str (pl : CPool) (src : List Char) : Except PoolErr (CPool × CPtr) :=
  let len := src.length
  if len > MAX_STRLEN then .error .tooLong
  else
    let new_end0 := pl.endIdx + len + 1
    let (pl1, new_end) :=
      if new_end0 > MAX_STRLEN then
        ((⟨zeroChunk :: pl.chunks, 0⟩ : CPool), len + 1)
      else (pl, new_end0)
    let dst : CPtr := ⟨pl1.chunks.length - 1, pl1.endIdx⟩
    .ok (⟨updFront pl1.chunks (fun c => writeCStr c pl1.endIdx src), new_end⟩, dst)

/-- Chunk lookup by age index (0 = oldest = back of the forward_list). -/
def readChunk (pl : CPool) (k : Nat) : Option (Nat → Char) :=
  pl.chunks.reverse[k]?

/-- Read a C string: bytes from `off` until a NUL, with enough fuel to cover
a whole 512-byte chunk. -/
def readCStrAux (c : Nat → Char) (off : Nat) : Nat → List Char
  | 0 => []
  | fuel + 1 =>
    let ch := c off
    if ch = NULC then [] else ch :: readCStrAux c (off + 1) fuel

/-- Dereference an interned-string address. -/
def readStr (pl : CPool) (ptr : CPtr) : Option (List Char) :=
  (readChunk pl ptr.chunk).map fun c => readCStrAux c ptr.off 512

/-- Fold a sequence of later `intern` calls over the pool; a call that
throws (string too long) mutates nothing. -/
def internMany (pl : CPool) : List (List Char) → CPool
  | [] => pl
  | s :: rest =>
    match copy_c_str pl s with
    | .ok (pl1, _) => internMany pl1 rest
    | .error _ => internMany pl rest

/-- Liveness of an allocation: the address is within the pool, bytes hold
the string plus its NUL, and when the allocation sits in the front chunk it
lies entirely below `_end` (the bump pointer). -/
def allocLive (pl : CPool) (ptr : CPtr) (s : List Char) : Prop :=
  ptr.chunk < pl.chunks.length ∧
  (ptr.chunk = pl.chunks.length - 1 → ptr.off + s.length + 1 ≤ pl.endIdx) ∧
  ptr.off + s.length ≤ MAX_STRLEN ∧
  ∃ c, readChunk pl ptr.chunk = some c ∧
    (∀ j, j < s.length → c (ptr.off + j) = s.getD j NULC) ∧
    c (ptr.off + s.length) = NULC

/-- Well-formedness of a reachable pool state: a chunkless pool still has
its initial `_end = MAX_STRLEN` (so the first allocation opens a chunk). -/
def PoolWF (pl : CPool) : Prop :=
  pl.chunks = [] → pl.endIdx = MAX_STRLEN

/-- Shorthand for a token whose text is irrelevant. -/
def tk (k : TokKind) : PToken := ⟨k, ""⟩


/-! Helper lemmas about the lookahead machine. -/

theorem tokStep_pass {t : PToken} {q : Plexer} {e : Bool}
    {cont : Except PErr (PToken × Plexer)}
    (h1 : t.type ≠ .END) (h2 : t.type ≠ .FAIL) (h3 : t.type ≠ .COMMENT) :
    tokStep t q e cont = .ok (t, q) := by
  unfold tokStep
  rw [if_neg h1, if_neg h2, if_neg h3]

theorem tokStep_ok_cases {t : PToken} {q : Plexer} {e : Bool}
    {cont : Except PErr (PToken × Plexer)} {r : PToken} {q' : Plexer}
    (h : tokStep t q e cont = .ok (r, q')) :
    (r = t ∧ q' = q ∧ t.type ≠ .FAIL ∧ t.type ≠ .COMMENT ∧ (t.type = .END → e = true))
    ∨ (t.type = .COMMENT ∧ cont = .ok (r, q')) := by
  unfold tokStep at h
  by_cases h1 : t.type = .END
  · rw [if_pos h1] at h
    cases e with
    | false => simp at h
    | true =>
      rw [if_pos rfl] at h
      simp only [Except.ok.injEq, Prod.mk.injEq] at h
      refine .inl ⟨h.1.symm, h.2.symm, ?_, ?_, fun _ => rfl⟩
      · rw [h1]; intro hh; exact absurd hh (by decide)
      · rw [h1]; intro hh; exact absurd hh (by decide)
  · rw [if_neg h1] at h
    by_cases h2 : t.type = .FAIL
    · rw [if_pos h2] at h; simp at h
    · rw [if_neg h2] at h
      by_cases h3 : t.type = .COMMENT
      · rw [if_pos h3] at h; exact .inr ⟨h3, h⟩
      · rw [if_neg h3] at h
        simp only [Except.ok.injEq, Prod.mk.injEq] at h
        exact .inl ⟨h.1.symm, h.2.symm, h2, h3, fun hE => absurd hE h1⟩

theorem pnextNormal_ok_false {ts ts' : List PToken} {t : PToken}
    (h : pnextNormal false ts = .ok (t, ts')) :
    t.type ≠ .END ∧ t.type ≠ .FAIL ∧ t.type ≠ .COMMENT := by
  induction ts generalizing ts' with
  | nil => simp [pnextNormal] at h
  | cons a as ih =>
    unfold pnextNormal at h
    by_cases h1 : a.type = .END
    · rw [if_pos h1] at h; simp at h
    · rw [if_neg h1] at h
      by_cases h2 : a.type = .FAIL
      · rw [if_pos h2] at h; simp at h
      · rw [if_neg h2] at h
        by_cases h3 : a.type = .COMMENT
        · rw [if_pos h3] at h; exact ih h
        · rw [if_neg h3] at h
          simp only [Except.ok.injEq, Prod.mk.injEq] at h
          obtain ⟨rfl, rfl⟩ := h
          exact ⟨h1, h2, h3⟩

theorem pnextPull_ok_false {p q : Plexer} {t : PToken}
    (h : pnextPull p false = .ok (t, q)) :
    t.type ≠ .END ∧ t.type ≠ .FAIL ∧ t.type ≠ .COMMENT := by
  unfold pnextPull at h
  revert h
  cases hm : pnextNormal false p.stream with
  | error e => intro h; simp at h
  | ok pr =>
    intro h
    obtain ⟨t2, ts⟩ := pr
    simp only [Except.ok.injEq, Prod.mk.injEq] at h
    obtain ⟨rfl, -⟩ := h
    exact pnextNormal_ok_false hm

theorem pnextPull_toks {p q : Plexer} {e : Bool} {t : PToken}
    (h : pnextPull p e = .ok (t, q)) :
    q.tok1 = p.tok1 ∧ q.tok2 = p.tok2 := by
  unfold pnextPull at h
  revert h
  cases hm : pnextNormal e p.stream with
  | error e2 => intro h; simp at h
  | ok pr =>
    intro h
    obtain ⟨t2, ts⟩ := pr
    simp only [Except.ok.injEq, Prod.mk.injEq] at h
    obtain ⟨-, rfl⟩ := h
    exact ⟨rfl, rfl⟩

theorem pnextFrom2_ok_false {p q : Plexer} {t : PToken}
    (h : pnextFrom2 p false = .ok (t, q)) :
    t.type ≠ .END ∧ t.type ≠ .FAIL ∧ t.type ≠ .COMMENT := by
  unfold pnextFrom2 at h
  rcases tokStep_ok_cases h with ⟨rfl, -, hF, hC, hE⟩ | ⟨-, h2⟩
  · exact ⟨fun hEnd => by simpa using hE hEnd, hF, hC⟩
  · exact pnextPull_ok_false h2

theorem pnextFrom1_ok_false {p q : Plexer} {t : PToken}
    (h : pnextFrom1 p false = .ok (t, q)) :
    t.type ≠ .END ∧ t.type ≠ .FAIL ∧ t.type ≠ .COMMENT := by
  unfold pnextFrom1 at h
  rcases tokStep_ok_cases h with ⟨rfl, -, hF, hC, hE⟩ | ⟨-, h2⟩
  · exact ⟨fun hEnd => by simpa using hE hEnd, hF, hC⟩
  · exact pnextFrom2_ok_false h2

theorem pnext_ok_false {p q : Plexer} {t : PToken}
    (h : pnext p false = .ok (t, q)) :
    t.type ≠ .END ∧ t.type ≠ .FAIL ∧ t.type ≠ .COMMENT := by
  unfold pnext at h
  cases hs : p.state <;> rw [hs] at h
  · exact pnextPull_ok_false h
  · exact pnextFrom1_ok_false h
  · exact pnextFrom2_ok_false h

theorem pnextFrom2_toks {p q : Plexer} {e : Bool} {t : PToken}
    (h : pnextFrom2 p e = .ok (t, q)) :
    q.tok1 = p.tok1 ∧ q.tok2 = p.tok2 := by
  unfold pnextFrom2 at h
  rcases tokStep_ok_cases h with ⟨-, rfl, -, -, -⟩ | ⟨-, h2⟩
  · exact ⟨rfl, rfl⟩
  · have := pnextPull_toks h2
    exact this

theorem pnextFrom1_toks {p q : Plexer} {e : Bool} {t : PToken}
    (h : pnextFrom1 p e = .ok (t, q)) :
    q.tok1 = p.tok1 ∧ q.tok2 = p.tok2 := by
  unfold pnextFrom1 at h
  rcases tokStep_ok_cases h with ⟨-, rfl, -, -, -⟩ | ⟨-, h2⟩
  · exact ⟨rfl, rfl⟩
  · have := pnextFrom2_toks h2
    exact this

theorem pnext_toks {p q : Plexer} {e : Bool} {t : PToken}
    (h : pnext p e = .ok (t, q)) :
    q.tok1 = p.tok1 ∧ q.tok2 = p.tok2 := by
  unfold pnext at h
  cases hs : p.state <;> rw [hs] at h
  · exact pnextPull_toks h
  · exact pnextFrom1_toks h
  · exact pnextFrom2_toks h

theorem pnext_TOK1 (t1 t2 : PToken) (ts : List PToken) (e : Bool)
    (hE : t1.type ≠ .END) (hF : t1.type ≠ .FAIL) (hC : t1.type ≠ .COMMENT) :
    pnext ⟨.TOK1, t1, t2, ts⟩ e = .ok (t1, ⟨.TOK2, t1, t2, ts⟩) := by
  show pnextFrom1 _ _ = _
  unfold pnextFrom1
  exact tokStep_pass hE hF hC

theorem pnext_TOK2 (t1 t2 : PToken) (ts : List PToken) (e : Bool)
    (hE : t2.type ≠ .END) (hF : t2.type ≠ .FAIL) (hC : t2.type ≠ .COMMENT) :
    pnext ⟨.TOK2, t1, t2, ts⟩ e = .ok (t2, ⟨.NORMAL, t1, t2, ts⟩) := by
  show pnextFrom2 _ _ = _
  unfold pnextFrom2
  exact tokStep_pass hE hF hC

/-- C10: after `save_and_lookahead` saves the current token and one more
token of lookahead, the next two token requests replay exactly those two
tokens (kind and text), in saved order, and leave the lexer back in the
NORMAL state with the underlying stream untouched — so the chosen
sub-parser observes the very token sequence it would have seen without the
lookahead.  The saved-token buffers are fixed 128-byte arrays filled by an
unchecked `strcpy`, so the guarantee carries the 127-byte precondition on
each saved token's text. -/
theorem C10_save_and_replay (p : Plexer) (cur t2 : PToken) (p' : Plexer) (e1 e2 : Bool)
    (hE : cur.type ≠ .END) (hF : cur.type ≠ .FAIL) (hC : cur.type ≠ .COMMENT)
    (hlen1 : cur.text.length ≤ 127) (hlen2 : t2.text.length ≤ 127)
    (hsave : save_and_lookahead p cur = .ok (t2, p')) :
    p'.state = .TOK1
    ∧ pnext p' e1 = .ok (cur, { p' with state := .TOK2 })
    ∧ pnext { p' with state := .TOK2 } e2 = .ok (t2, { p' with state := .NORMAL })
    ∧ p'.stream = ({ p' with state := .NORMAL } : Plexer).stream := by
  simp only [save_and_lookahead] at hsave
  cases hpn : pnext { p with tok1 := cur } false with
  | error e => rw [hpn] at hsave; simp at hsave
  | ok pr =>
    rw [hpn] at hsave
    obtain ⟨t2', p2⟩ := pr
    simp only [Except.ok.injEq, Prod.mk.injEq] at hsave
    obtain ⟨rfl, rfl⟩ := hsave
    have htoks := pnext_toks hpn
    have htype2 := pnext_ok_false hpn
    obtain ⟨s2, tA, tB, ts⟩ := p2
    simp only at htoks
    obtain ⟨rfl, -⟩ := htoks
    exact ⟨rfl, pnext_TOK1 _ _ _ _ hE hF hC,
      pnext_TOK2 _ _ _ _ htype2.1 htype2.2.1 htype2.2.2, rfl⟩

/-- Witness for C10 at a concrete instance: current token `STR "b"`, stream
continuing `EQ INTEGER`, both texts under 127 bytes. -/
theorem C10_save_and_replay_witness :
    (⟨.TOK1, ⟨.STR, "b"⟩, ⟨.EQ, ""⟩, [⟨.INTEGER, "1"⟩]⟩ : Plexer).state = .TOK1
    ∧ pnext ⟨.TOK1, ⟨.STR, "b"⟩, ⟨.EQ, ""⟩, [⟨.INTEGER, "1"⟩]⟩ true
        = .ok (⟨.STR, "b"⟩, ⟨.TOK2, ⟨.STR, "b"⟩, ⟨.EQ, ""⟩, [⟨.INTEGER, "1"⟩]⟩)
    ∧ pnext ⟨.TOK2, ⟨.STR, "b"⟩, ⟨.EQ, ""⟩, [⟨.INTEGER, "1"⟩]⟩ false
        = .ok (⟨.EQ, ""⟩, ⟨.NORMAL, ⟨.STR, "b"⟩, ⟨.EQ, ""⟩, [⟨.INTEGER, "1"⟩]⟩)
    ∧ (⟨.TOK1, ⟨.STR, "b"⟩, ⟨.EQ, ""⟩, [⟨.INTEGER, "1"⟩]⟩ : Plexer).stream
        = (⟨.NORMAL, ⟨.STR, "b"⟩, ⟨.EQ, ""⟩, [⟨.INTEGER, "1"⟩]⟩ : Plexer).stream :=
  C10_save_and_replay (mkPlexer [⟨.EQ, ""⟩, ⟨.INTEGER, "1"⟩]) ⟨.STR, "b"⟩ ⟨.EQ, ""⟩
    ⟨.TOK1, ⟨.STR, "b"⟩, ⟨.EQ, ""⟩, [⟨.INTEGER, "1"⟩]⟩ true false
    (by decide) (by decide) (by decide) (by decide) (by decide) rfl

/-- C1: the block/list disambiguation on the three specified inputs —
`a = { b = 1 }` parses a's value as a Block with the single statement
(b, 1); `a = { 1 2 3 }` parses it as a List of the three integers; the
double-open `a = { { x = 1 } }` parses as a List holding exactly one Block. -/
theorem C1_list_block_disambiguation :
    (parseRoot 50 [⟨.STR, "a"⟩, tk .EQ, tk .OPEN, ⟨.STR, "b"⟩, tk .EQ,
        ⟨.INTEGER, "1"⟩, tk .CLOSE, tk .END] false).map Prod.fst
      = .ok [(.str "a", .blk [(.str "b", .int 1)])]
    ∧ (parseRoot 50 [⟨.STR, "a"⟩, tk .EQ, tk .OPEN, ⟨.INTEGER, "1"⟩,
        ⟨.INTEGER, "2"⟩, ⟨.INTEGER, "3"⟩, tk .CLOSE, tk .END] false).map Prod.fst
      = .ok [(.str "a", .lst [.int 1, .int 2, .int 3])]
    ∧ (parseRoot 50 [⟨.STR, "a"⟩, tk .EQ, tk .OPEN, tk .OPEN, ⟨.STR, "x"⟩,
        tk .EQ, ⟨.INTEGER, "1"⟩, tk .CLOSE, tk .CLOSE, tk .END] false).map Prod.fst
      = .ok [(.str "a", .lst [.blk [(.str "x", .int 1)]])] :=
  ⟨rfl, rfl, rfl⟩

/-- C2 (divergence witness): `parse_decimal<3>` on an integral part above
`integral_max` (3000000 > 2147482) raises the fatal range error
`throw_range_error` — it does not enqueue a recoverable diagnostic and
continue, contrary to the claim (the source's own FIXME at
src/core/fp_decimal.hpp line 156 records that it should be non-fatal). -/
theorem C2_overflow_is_fatal :
    fp_parse 3 "3000000.0" = .error (.range 3000000) := rfl

/-- C3 (divergence witness): `parse_decimal<3>("123.12345")` keeps the value
truncated to three fractional digits (mantissa 123123) but emits no
diagnostic at all: the truncation-warning branch is disabled
(`if (false && *p)`, src/core/fp_decimal.hpp line 190), so the emitted
diagnostic list is empty rather than one Warning. -/
theorem C3_truncation_silent :
    fp_parse 3 "123.12345" = .ok (123123, []) := rfl

/-- C4 (counterexample): the valid literal "-0.5" is parsed to mantissa
-500, but printing -500 yields "0.500" — the sign is dropped because
`integral()` is 0 — whose numeric value 0.5 differs from -0.5.  So the
round-trip fails for negative values with zero integral part. -/
theorem C4_roundtrip_counterexample :
    fp_parse 3 "-0.5" = .ok (-500, [])
    ∧ fp_print 3 (-500) = "0.500"
    ∧ decLiteralValue 3 "-0.5" = some (-500)
    ∧ decLiteralValue 3 "0.500" = some 500
    ∧ (500 : Int) ≠ -500 :=
  ⟨rfl, rfl, rfl, rfl, by decide⟩

/-- C5 (counterexample): in the latest snapshot (src/core/main.cpp), a
DECIMAL token in value position is treated as an unexpected token — the
fatal `unexpected_token` path — not accepted as a fixed-point decimal value
(RHS decimal support is an open TODO there). -/
theorem C5_decimal_value_rejected :
    parseRoot 50 [⟨.STR, "a"⟩, tk .EQ, ⟨.DECIMAL, "1.5"⟩, tk .END] false
      = .error (.unexpectedToken .DECIMAL) := rfl

/-- C5 (amended): in the earlier snapshot (src/unnamed/part_001), a DECIMAL
value token is accepted in statement-value position and as a list element —
stored as its raw token text tagged DECIMAL, not as a parsed fixed-point
value — while a DECIMAL in key position is a fatal unexpected token in both
snapshots (and the latest snapshot rejects DECIMAL values outright). -/
theorem C5_decimal_amended (k d d2 : String) :
    (parseP1Root 50 [⟨.STR, k⟩, tk .EQ, ⟨.DECIMAL, d⟩, tk .END] false).map Prod.fst
      = .ok [(.str k, .decS d)]
    ∧ (parseP1Root 50 [⟨.STR, k⟩, tk .EQ, tk .OPEN, ⟨.DECIMAL, d⟩, ⟨.DECIMAL, d2⟩,
        tk .CLOSE, tk .END] false).map Prod.fst
      = .ok [(.str k, .lst [.decS d, .decS d2])]
    ∧ parseP1Root 50 [⟨.DECIMAL, d⟩, tk .EQ, ⟨.INTEGER, "1"⟩, tk .END] false
      = .error (.unexpectedToken .DECIMAL)
    ∧ parseRoot 50 [⟨.STR, k⟩, tk .EQ, ⟨.DECIMAL, d⟩, tk .END] false
      = .error (.unexpectedToken .DECIMAL) :=
  ⟨rfl, rfl, rfl, rfl⟩

/-- C6 (divergence witness): on `a = { }` the latest snapshot's block
constructor hits the empty-block `continue` before `vec.emplace_back`, so
the resulting root block has NO statements — the statement (a, empty Block)
is dropped; the earlier snapshot (src/unnamed/part_001), which emplaces the
statement before parsing the key, retains it with an empty Block value. -/
theorem C6_empty_block_statement_dropped :
    (parseRoot 50 [⟨.STR, "a"⟩, tk .EQ, tk .OPEN, tk .CLOSE, tk .END] false).map Prod.fst
      = .ok []
    ∧ (parseP1Root 50 [⟨.STR, "a"⟩, tk .EQ, tk .OPEN, tk .CLOSE, tk .END] false).map Prod.fst
      = .ok [(.str "a", .blk [])] :=
  ⟨rfl, rfl⟩

/-- C7 (divergence witness): `date::operator<` compares `e._m < _y` (the
other's month against this year, src/core/date.hpp line 32), so it is not
the lexicographic order over (year, month, day): for a = 1.5.1 and
b = 1.2.2 the code returns a < b even though lexicographically a > b. -/
theorem C7_date_lt_not_lexicographic :
    dateH_lt ⟨1, 5, 1⟩ ⟨1, 2, 2⟩ = true
    ∧ ¬ dateLexLt ⟨1, 5, 1⟩ ⟨1, 2, 2⟩ :=
  ⟨rfl, by decide⟩

/-- C8 (counterexample): in save-game mode the guard is `is_root && !is_save`,
so a root-level unmatched CLOSE right after the savegame header is NOT a
fatal error — the root parse simply returns (here: successfully, with no
statements), contrary to the claim's unconditional "every document". -/
theorem C8_close_save_mode_counterexample :
    parseRoot 50 [⟨.STR, "CK2txt"⟩, tk .CLOSE, ⟨.STR, "junk"⟩, tk .END] true
      = .ok ([], ⟨.NORMAL, ⟨.END, ""⟩, ⟨.END, ""⟩, [⟨.STR, "junk"⟩, tk .END]⟩) := rfl

/-- C8 (amended): whenever the statement loop reaches a CLOSE token at root
level in non-save mode, the parse fails with the unmatched-closing-brace
error; the same CLOSE one nesting level deep (a non-root block, or a list)
is no error and terminates that block/list normally. -/
theorem C8_close_handling (fuel : Nat) (p p' : Plexer) (t : PToken) (isSave : Bool) :
    (pnext p true = .ok (t, p') → t.type = .CLOSE →
      blockRun (fuel + 1) p true false = .error .unmatchedBrace)
    ∧ (pnext p false = .ok (t, p') → t.type = .CLOSE →
      blockRun (fuel + 1) p false isSave = .ok ([], p'))
    ∧ (pnext p false = .ok (t, p') → t.type = .CLOSE →
      listRun (fuel + 1) p = .ok ([], p')) := by
  refine ⟨fun h ht => ?_, fun h ht => ?_, fun h ht => ?_⟩
  · unfold blockRun
    rw [h]
    simp only [Bind.bind, Except.bind, ht]
    simp
  · unfold blockRun
    rw [h]
    simp only [Bind.bind, Except.bind, ht]
    simp
  · unfold listRun
    rw [h]
    simp only [Bind.bind, Except.bind, ht]
    simp

/-- Witness for C8 at a concrete instance: a stream beginning with CLOSE. -/
theorem C8_close_handling_witness :
    blockRun 1 (mkPlexer [tk .CLOSE]) true false = .error .unmatchedBrace
    ∧ blockRun 1 (mkPlexer [tk .CLOSE]) false false = .ok ([], mkPlexer [])
    ∧ listRun 1 (mkPlexer [tk .CLOSE]) = .ok ([], mkPlexer []) :=
  ⟨(C8_close_handling 0 (mkPlexer [tk .CLOSE]) (mkPlexer []) (tk .CLOSE) false).1 rfl rfl,
   (C8_close_handling 0 (mkPlexer [tk .CLOSE]) (mkPlexer []) (tk .CLOSE) false).2.1 rfl rfl,
   (C8_close_handling 0 (mkPlexer [tk .CLOSE]) (mkPlexer []) (tk .CLOSE) false).2.2 rfl rfl⟩

/-! Helper lemmas for the string arena. -/

theorem reverse_getElem?_cons_lt (c : Nat → Char) (chs : List (Nat → Char))
    (k : Nat) (hk : k < chs.length) :
    (c :: chs).reverse[k]? = chs.reverse[k]? := by
  rw [List.reverse_cons]
  exact List.getElem?_append_left (by simpa using hk)

theorem reverse_getElem?_cons_self (c : Nat → Char) (chs : List (Nat → Char)) :
    (c :: chs).reverse[chs.length]? = some c := by
  rw [List.reverse_cons]
  rw [List.getElem?_append_right (by simp)]
  simp

theorem copy_ok_cases {pl : CPool} {src : List Char} {pl2 : CPool} {ptr : CPtr}
    (h : copy_c_str pl src = .ok (pl2, ptr)) :
    src.length ≤ MAX_STRLEN ∧
    ((pl.endIdx + src.length + 1 > MAX_STRLEN ∧
        pl2 = ⟨writeCStr zeroChunk 0 src :: pl.chunks, src.length + 1⟩ ∧
        ptr = ⟨pl.chunks.length, 0⟩)
     ∨ (pl.endIdx + src.length + 1 ≤ MAX_STRLEN ∧
        pl2 = ⟨updFront pl.chunks (fun c => writeCStr c pl.endIdx src),
               pl.endIdx + src.length + 1⟩ ∧
        ptr = ⟨pl.chunks.length - 1, pl.endIdx⟩)) := by
  simp only [copy_c_str] at h
  by_cases h1 : src.length > MAX_STRLEN
  · rw [if_pos h1] at h; simp at h
  · rw [if_neg h1] at h
    refine ⟨Nat.le_of_not_lt h1, ?_⟩
    by_cases h2 : pl.endIdx + src.length + 1 > MAX_STRLEN
    · rw [if_pos h2] at h
      simp only [Except.ok.injEq, Prod.mk.injEq] at h
      exact .inl ⟨h2, h.1.symm, by rw [← h.2]; simp⟩
    · rw [if_neg h2] at h
      simp only [Except.ok.injEq, Prod.mk.injEq] at h
      exact .inr ⟨Nat.le_of_not_lt h2, h.1.symm, h.2.symm⟩

theorem updFront_length (chs : List (Nat → Char)) (f : (Nat → Char) → Nat → Char) :
    (updFront chs f).length = chs.length := by
  cases chs <;> rfl

theorem writeCStr_below {c : Nat → Char} {off : Nat} {s : List Char} {j : Nat}
    (hj : j < off) : writeCStr c off s j = c j := by
  unfold writeCStr
  rw [if_neg (by omega), if_neg (by omega)]

theorem writeCStr_inside {c : Nat → Char} {off : Nat} {s : List Char} {j : Nat}
    (hj : j < s.length) : writeCStr c off s (off + j) = s.getD j NULC := by
  unfold writeCStr
  rw [if_pos (by omega)]
  simp

theorem writeCStr_nul {c : Nat → Char} {off : Nat} {s : List Char} :
    writeCStr c off s (off + s.length) = NULC := by
  unfold writeCStr
  rw [if_neg (by omega), if_pos rfl]

theorem allocLive_copy {pl : CPool} {ptr : CPtr} {s src : List Char}
    {pl2 : CPool} {p2 : CPtr}
    (hl : allocLive pl ptr s) (h : copy_c_str pl src = .ok (pl2, p2)) :
    allocLive pl2 ptr s := by
  obtain ⟨hk, hfront, hmax, c, hc, hbytes, hnul⟩ := hl
  unfold readChunk at hc
  rcases (copy_ok_cases h).2 with ⟨hroll, rfl, rfl⟩ | ⟨hfit, rfl, rfl⟩
  · refine ⟨by simpa using Nat.lt_succ_of_lt hk, ?_, hmax, c, ?_, hbytes, hnul⟩
    · intro hEq
      simp only [List.length_cons] at hEq
      omega
    · show (writeCStr zeroChunk 0 src :: pl.chunks).reverse[ptr.chunk]? = some c
      rw [reverse_getElem?_cons_lt _ _ _ hk]
      exact hc
  · rcases hchs : pl.chunks with _ | ⟨c0, rest⟩
    · rw [hchs] at hk
      simp at hk
    · rw [hchs] at hfront hc hk
      replace hk : ptr.chunk < rest.length + 1 := by simpa using hk
      by_cases hfi : ptr.chunk = rest.length
      · -- the allocation lives in the front chunk
        have hcc : c0 = c := by
          rw [hfi, reverse_getElem?_cons_self] at hc
          exact Option.some.inj hc
        have hoff : ptr.off + s.length + 1 ≤ pl.endIdx := hfront (by simp [hfi])
        subst hcc
        refine ⟨by simp [updFront]; omega, ?_, hmax,
          writeCStr c0 pl.endIdx src, ?_, ?_, ?_⟩
        · intro _
          show ptr.off + s.length + 1 ≤ pl.endIdx + src.length + 1
          omega
        · unfold readChunk
          simp only [updFront]
          rw [hfi]
          exact reverse_getElem?_cons_self _ rest
        · intro j hj
          rw [writeCStr_below (by omega)]
          exact hbytes j hj
        · rw [writeCStr_below (by omega)]
          exact hnul
      · -- an older chunk: untouched
        have hklt : ptr.chunk < rest.length := by omega
        refine ⟨by simp [updFront]; omega, ?_, hmax, c, ?_, hbytes, hnul⟩
        · intro hEq
          simp only [updFront, List.length_cons] at hEq
          omega
        · unfold readChunk
          simp only [updFront]
          rw [reverse_getElem?_cons_lt _ _ _ hklt]
          rw [reverse_getElem?_cons_lt _ _ _ hklt] at hc
          exact hc

theorem copy_allocLive {pl : CPool} {src : List Char} {pl2 : CPool} {ptr : CPtr}
    (hwf : PoolWF pl) (h : copy_c_str pl src = .ok (pl2, ptr)) :
    allocLive pl2 ptr src ∧ PoolWF pl2 := by
  obtain ⟨hlen, hcase⟩ := copy_ok_cases h
  rcases hcase with ⟨hroll, rfl, rfl⟩ | ⟨hfit, rfl, rfl⟩
  · refine ⟨⟨by simp, ?_, by simpa using hlen, writeCStr zeroChunk 0 src, ?_, ?_, ?_⟩, ?_⟩
    · intro _
      simp
    · exact reverse_getElem?_cons_self _ _
    · intro j hj
      simpa using @writeCStr_inside zeroChunk 0 src j hj
    · simpa using @writeCStr_nul zeroChunk 0 src
    · intro hcontra
      simp at hcontra
  · rcases hchs : pl.chunks with _ | ⟨c0, rest⟩
    · exfalso
      have := hwf hchs
      rw [this] at hfit
      omega
    · refine ⟨⟨by simp [updFront], ?_,
        by show pl.endIdx + src.length ≤ MAX_STRLEN; omega,
        writeCStr c0 pl.endIdx src, ?_, ?_, ?_⟩, ?_⟩
      · intro _
        show pl.endIdx + src.length + 1 ≤ pl.endIdx + src.length + 1
        omega
      · unfold readChunk
        simp only [updFront, List.length_cons]
        simp only [Nat.add_sub_cancel]
        exact reverse_getElem?_cons_self (writeCStr c0 pl.endIdx src) rest
      · intro j hj
        simpa [hchs] using @writeCStr_inside c0 pl.endIdx src j hj
      · simpa [hchs] using @writeCStr_nul c0 pl.endIdx src
      · intro hcontra
        simp [updFront] at hcontra

theorem readCStrAux_spec {c : Nat → Char} {s : List Char} :
    ∀ {off fuel : Nat},
    (∀ j, j < s.length → c (off + j) = s.getD j NULC) →
    c (off + s.length) = NULC →
    (∀ x ∈ s, x ≠ NULC) →
    s.length < fuel →
    readCStrAux c off fuel = s := by
  induction s with
  | nil =>
    intro off fuel hbytes hnul hnn hfuel
    cases fuel with
    | zero => omega
    | succ f =>
      unfold readCStrAux
      rw [if_pos (by simpa using hnul)]
  | cons a t ih =>
    intro off fuel hbytes hnul hnn hfuel
    cases fuel with
    | zero => omega
    | succ f =>
      have h0 : c off = a := by simpa using hbytes 0 (by simp)
      unfold readCStrAux
      rw [if_neg (by rw [h0]; exact hnn a (by simp))]
      simp only [h0, List.cons.injEq, true_and]
      apply ih
      · intro j hj
        have := hbytes (j + 1) (by simpa using Nat.succ_lt_succ hj)
        simpa [Nat.add_assoc, Nat.add_comm 1 j] using this
      · have : off + 1 + t.length = off + (a :: t).length := by simp; omega
        rw [this]
        exact hnul
      · intro x hx
        exact hnn x (by simp [hx])
      · simpa using Nat.lt_of_succ_lt_succ (by simpa using hfuel)

theorem allocLive_readStr {pl : CPool} {ptr : CPtr} {s : List Char}
    (hl : allocLive pl ptr s) (hnn : ∀ x ∈ s, x ≠ NULC) :
    readStr pl ptr = some s := by
  obtain ⟨-, -, hmax, c, hc, hbytes, hnul⟩ := hl
  unfold readStr
  rw [hc]
  simp only [Option.map_some']
  congr 1
  have h511 : MAX_STRLEN = 511 := rfl
  exact readCStrAux_spec hbytes hnul hnn (by omega)

theorem allocLive_internMany {pl : CPool} {ptr : CPtr} {s : List Char}
    (hl : allocLive pl ptr s) (fs : List (List Char)) :
    allocLive (internMany pl fs) ptr s := by
  induction fs generalizing pl with
  | nil => exact hl
  | cons f fs ih =>
    unfold internMany
    cases hcp : copy_c_str pl f with
    | ok pr =>
      obtain ⟨pl1, ptr1⟩ := pr
      exact ih (allocLive_copy hl hcp)
    | error e => exact ih hl

/-- C9: an interned string (length at most MAX_STRLEN = 511, NUL-free) is
copied byte-for-byte into the arena, and the returned address keeps
dereferencing to exactly that copy after arbitrarily many further `intern`
calls — including calls that exhaust the current chunk and roll over to a
fresh chunk; earlier allocations are never moved or overwritten. -/
theorem C9_arena_stability (pl : CPool) (src : List Char) (pl1 : CPool) (ptr : CPtr)
    (hwf : PoolWF pl) (hnul : ∀ x ∈ src, x ≠ NULC)
    (hcopy : copy_c_str pl src = .ok (pl1, ptr)) (future : List (List Char)) :
    readStr pl1 ptr = some src
    ∧ readStr (internMany pl1 future) ptr = some src := by
  have hal := (copy_allocLive hwf hcopy).1
  exact ⟨allocLive_readStr hal hnul,
    allocLive_readStr (allocLive_internMany hal future) hnul⟩

/-- Witness for C9 at a concrete instance: intern "ab" into a fresh pool,
then intern two 300-byte strings afterwards — the second forces a chunk
rollover — and read the original address back. -/
theorem C9_arena_stability_witness :
    readStr (CPool.mk [writeCStr zeroChunk 0 ['a', 'b']] 3) ⟨0, 0⟩ = some ['a', 'b']
    ∧ readStr (internMany (CPool.mk [writeCStr zeroChunk 0 ['a', 'b']] 3)
        [List.replicate 300 'c', List.replicate 300 'd']) ⟨0, 0⟩ = some ['a', 'b'] :=
  C9_arena_stability mkCPool ['a', 'b'] (CPool.mk [writeCStr zeroChunk 0 ['a', 'b']] 3)
    ⟨0, 0⟩ (fun _ => rfl) (by decide) rfl
    [List.replicate 300 'c', List.replicate 300 'd']

/-! Helper lemmas for the fixed-point decimal round trip. -/

theorem charsVal_aux (l : List Char) (a : Int) :
    l.foldl (fun x c => 10 * x + digitVal c) a = a * 10 ^ l.length + charsVal l := by
  induction l generalizing a with
  | nil => simp [charsVal]
  | cons c t ih =>
    show t.foldl _ (10 * a + digitVal c) = _
    rw [ih (10 * a + digitVal c)]
    rw [show charsVal (c :: t) = t.foldl (fun x c => 10 * x + digitVal c) (10 * 0 + digitVal c)
      from rfl]
    rw [ih (10 * 0 + digitVal c)]
    simp only [List.length_cons, pow_succ]
    ring

theorem charsVal_cons (c : Char) (t : List Char) :
    charsVal (c :: t) = digitVal c * 10 ^ t.length + charsVal t := by
  show t.foldl _ (10 * 0 + digitVal c) = _
  rw [charsVal_aux]
  ring

theorem charsVal_append (l r : List Char) :
    charsVal (l ++ r) = charsVal l * 10 ^ r.length + charsVal r := by
  show (l ++ r).foldl _ 0 = _
  rw [List.foldl_append]
  exact charsVal_aux r (charsVal l)

theorem digitVal_bounds {c : Char} (h : isDigitCh c = true) :
    0 ≤ digitVal c ∧ digitVal c ≤ 9 := by
  unfold isDigitCh at h
  simp only [Bool.and_eq_true, decide_eq_true_eq] at h
  unfold digitVal
  omega

theorem charsVal_nonneg {l : List Char} (h : l.all isDigitCh = true) :
    0 ≤ charsVal l := by
  induction l with
  | nil => simp [charsVal]
  | cons c t ih =>
    simp only [List.all_cons, Bool.and_eq_true] at h
    rw [charsVal_cons]
    have h1 := digitVal_bounds h.1
    have h2 := ih h.2
    have hp : (0 : Int) ≤ 10 ^ t.length := by positivity
    nlinarith

theorem charsVal_lt {l : List Char} (h : l.all isDigitCh = true) :
    charsVal l < 10 ^ l.length := by
  induction l with
  | nil => simp [charsVal]
  | cons c t ih =>
    simp only [List.all_cons, Bool.and_eq_true] at h
    rw [charsVal_cons]
    have h1 := digitVal_bounds h.1
    have h2 := ih h.2
    have hp : (0 : Int) < 10 ^ t.length := by positivity
    simp only [List.length_cons, pow_succ]
    nlinarith

theorem intLoop_foldr (l : List Char) :
    l.foldr (fun c pa => (pa.1 * 10, pa.2 + pa.1 * digitVal c)) ((1 : Int), (0 : Int))
      = (10 ^ l.length, charsVal l) := by
  induction l with
  | nil => simp [charsVal]
  | cons c t ih =>
    simp only [List.foldr_cons, ih]
    refine Prod.ext ?_ ?_
    · simp [pow_succ]
    · simp only []
      rw [charsVal_cons]
      ring

theorem intLoopVal_eq (l : List Char) : intLoopVal l = charsVal l := by
  unfold intLoopVal
  rw [intLoop_foldr]

theorem fracLoop_eq (D : Nat) (l : List Char) :
    ∀ i : Nat, i + l.length ≤ D →
    fracLoop D l i = charsVal l * 10 ^ (D - i - l.length) := by
  induction l with
  | nil => intro i _; simp [fracLoop, charsVal]
  | cons c t ih =>
    intro i hle
    simp only [List.length_cons] at hle
    unfold fracLoop
    rw [if_pos (by omega)]
    rw [ih (i + 1) (by omega)]
    rw [charsVal_cons]
    simp only [List.length_cons]
    have e1 : D - i - 1 = t.length + (D - i - (t.length + 1)) := by omega
    have e2 : D - (i + 1) - t.length = D - i - (t.length + 1) := by omega
    rw [e2, e1, pow_add]
    ring

theorem breakAtDot_nodot {l : List Char} (h : ∀ c ∈ l, c ≠ '.') :
    breakAtDot l = (l, []) := by
  induction l with
  | nil => rfl
  | cons c t ih =>
    unfold breakAtDot
    rw [if_neg (h c (by simp))]
    rw [ih (fun x hx => h x (by simp [hx]))]

theorem breakAtDot_split {l : List Char} (r : List Char) (h : ∀ c ∈ l, c ≠ '.') :
    breakAtDot (l ++ '.' :: r) = (l, '.' :: r) := by
  induction l with
  | nil => simp [breakAtDot]
  | cons c t ih =>
    simp only [List.cons_append]
    unfold breakAtDot
    rw [if_neg (h c (by simp))]
    rw [ih (fun x hx => h x (by simp [hx]))]

theorem isDigit_ne_dot {c : Char} (h : isDigitCh c = true) : c ≠ '.' := by
  intro hc
  subst hc
  exact absurd h (by decide)

theorem isDigit_ne_minus {c : Char} (h : isDigitCh c = true) : c ≠ '-' := by
  intro hc
  subst hc
  exact absurd h (by decide)

theorem neg_tmod_eq (a b : Int) : (-a).tmod b = -(a.tmod b) := by
  rw [Int.tmod_def, Int.tmod_def, Int.neg_tdiv]
  ring

theorem tdiv_decomp {I F s : Int} (hI : 0 ≤ I) (hF : 0 ≤ F) (hFs : F < s) :
    (I * s + F).tdiv s = I ∧ (I * s + F).tmod s = F := by
  have hs : 0 < s := lt_of_le_of_lt hF hFs
  have hnn : 0 ≤ I * s + F := add_nonneg (mul_nonneg hI (le_of_lt hs)) hF
  constructor
  · rw [Int.tdiv_eq_ediv hnn (le_of_lt hs)]
    rw [add_comm, Int.add_mul_ediv_right F I (ne_of_gt hs)]
    rw [Int.ediv_eq_zero_of_lt hF hFs, zero_add]
  · rw [Int.tmod_eq_emod hnn (le_of_lt hs)]
    rw [add_comm, mul_comm, Int.add_mul_emod_self_left]
    exact Int.emod_eq_of_lt hF hFs

theorem digitVal_digitChar {d : Nat} (h : d < 10) :
    digitVal (Nat.digitChar d) = (d : Int) := by
  interval_cases d <;> decide

theorem isDigitCh_digitChar {d : Nat} (h : d < 10) :
    isDigitCh (Nat.digitChar d) = true := by
  interval_cases d <;> decide

theorem natCharsAux_spec (fuel : Nat) :
    ∀ n : Nat, n ≤ fuel →
    charsVal (natCharsAux fuel n).reverse = (n : Int)
    ∧ (natCharsAux fuel n).all isDigitCh = true
    ∧ (∀ k : Nat, n < 10 ^ k → (natCharsAux fuel n).length ≤ k) := by
  induction fuel with
  | zero =>
    intro n hn
    have h0 : n = 0 := by omega
    subst h0
    refine ⟨by simp [natCharsAux, charsVal], by simp [natCharsAux], by simp [natCharsAux]⟩
  | succ f ih =>
    intro n hn
    unfold natCharsAux
    by_cases h0 : n = 0
    · subst h0
      rw [if_pos rfl]
      exact ⟨by simp [charsVal], by simp, by simp⟩
    · rw [if_neg h0]
      have hrec := ih (n / 10) (by omega)
      have hm : n % 10 < 10 := Nat.mod_lt n (by norm_num)
      refine ⟨?_, ?_, ?_⟩
      · rw [List.reverse_cons, charsVal_append, hrec.1]
        have hone : charsVal [Nat.digitChar (n % 10)] = ((n % 10 : Nat) : Int) := by
          show 10 * 0 + digitVal (Nat.digitChar (n % 10)) = _
          rw [digitVal_digitChar hm]
          ring
        rw [hone]
        simp only [List.length_singleton, pow_one]
        omega
      · simp only [List.all_cons, Bool.and_eq_true]
        exact ⟨isDigitCh_digitChar hm, hrec.2.1⟩
      · intro k hk
        have hk1 : 1 ≤ k := by
          by_contra hcon
          have hk0 : k = 0 := by omega
          rw [hk0] at hk
          simp at hk
          omega
        have hdiv : n / 10 < 10 ^ (k - 1) := by
          have hsp : 10 ^ (k - 1) * 10 = 10 ^ k := by
            rw [← pow_succ]
            congr 1
            omega
          have : n < 10 ^ (k - 1) * 10 := by rw [hsp]; exact hk
          omega
        have := hrec.2.2 (k - 1) hdiv
        simp only [List.length_cons]
        omega

theorem charsVal_natChars (n : Nat) : charsVal (natChars n) = (n : Int) := by
  unfold natChars
  by_cases h : n = 0
  · subst h
    rw [if_pos rfl]
    decide
  · rw [if_neg h]
    exact (natCharsAux_spec n n le_rfl).1

theorem natChars_all (n : Nat) : (natChars n).all isDigitCh = true := by
  unfold natChars
  by_cases h : n = 0
  · subst h
    rw [if_pos rfl]
    decide
  · rw [if_neg h]
    rw [List.all_reverse]
    exact (natCharsAux_spec n n le_rfl).2.1

theorem natChars_ne_nil (n : Nat) : natChars n ≠ [] := by
  unfold natChars
  by_cases h : n = 0
  · rw [if_pos h]
    simp
  · rw [if_neg h]
    cases hn : n with
    | zero => exact absurd hn h
    | succ m =>
      unfold natCharsAux
      rw [if_neg (hn ▸ h)]
      simp

theorem natChars_len_le {n D : Nat} (hD : 1 ≤ D) (h : n < 10 ^ D) :
    (natChars n).length ≤ D := by
  unfold natChars
  by_cases h0 : n = 0
  · rw [if_pos h0]
    simpa using hD
  · rw [if_neg h0]
    rw [List.length_reverse]
    exact (natCharsAux_spec n n le_rfl).2.2 D h

theorem charsVal_replicate_zero (k : Nat) : charsVal (List.replicate k '0') = 0 := by
  induction k with
  | zero => rfl
  | succ m ih =>
    rw [List.replicate_succ, charsVal_cons, ih]
    have : digitVal '0' = 0 := by decide
    rw [this]
    ring

theorem replicate_zero_all (k : Nat) : (List.replicate k '0').all isDigitCh = true := by
  induction k with
  | zero => rfl
  | succ m ih =>
    rw [List.replicate_succ]
    simp only [List.all_cons, Bool.and_eq_true]
    exact ⟨by decide, ih⟩

theorem decBody_print (D : Nat) (hD : 1 ≤ D) (n fN : Nat) (hf : fN < 10 ^ D) :
    decBody D (natChars n ++
      (if fN ≠ 0 then
        '.' :: (List.replicate (D - (natChars fN).length) '0' ++ natChars fN)
      else []))
      = some ((n : Int) * 10 ^ D + (fN : Int)) := by
  have hall := natChars_all n
  have hnodot : ∀ c ∈ natChars n, c ≠ '.' := fun c hc =>
    isDigit_ne_dot (List.all_eq_true.mp hall c hc)
  by_cases hf0 : fN = 0
  · rw [if_neg (by simpa using hf0)]
    rw [List.append_nil]
    unfold decBody
    rw [breakAtDot_nodot hnodot]
    dsimp only
    rw [if_pos ⟨natChars_ne_nil n, hall⟩]
    rw [charsVal_natChars]
    rw [hf0]
    simp
  · rw [if_pos hf0]
    unfold decBody
    rw [breakAtDot_split _ hnodot]
    dsimp only
    have hlenf : (natChars fN).length ≤ D := natChars_len_le hD hf
    have hlen : (List.replicate (D - (natChars fN).length) '0' ++ natChars fN).length = D := by
      simp only [List.length_append, List.length_replicate]
      omega
    have hallf : (List.replicate (D - (natChars fN).length) '0' ++ natChars fN).all
        isDigitCh = true := by
      rw [List.all_append]
      simp only [Bool.and_eq_true]
      exact ⟨replicate_zero_all _, natChars_all fN⟩
    rw [if_pos ⟨natChars_ne_nil n, hall, hallf, le_of_eq hlen⟩]
    rw [charsVal_natChars, hlen]
    rw [charsVal_append, charsVal_replicate_zero, charsVal_natChars]
    simp

theorem decLit_of_head_ne (D : Nat) (l : List Char) (h : l.head? ≠ some '-') :
    decLiteralValue D ⟨l⟩ = decBody D l := by
  unfold decLiteralValue
  have hd : (decide (l.head? = some '-')) = false := by
    simpa using h
  simp only [hd]
  cases hdb : decBody D l <;> simp [hdb]

theorem decLit_neg (D : Nat) (l : List Char) :
    decLiteralValue D ⟨'-' :: l⟩ = (decBody D l).map (fun v => -v) := by
  unfold decLiteralValue
  simp

theorem print_parse (D : Nat) (hD : 1 ≤ D) (I Fr : Int) (hI : 0 ≤ I) (hF0 : 0 ≤ Fr)
    (hFs : Fr < fp_scale D) (neg : Bool) (hns : neg = true → I = 0 → Fr = 0) :
    decLiteralValue D (fp_print D (if neg then -(I * fp_scale D + Fr) else I * fp_scale D + Fr))
      = some (if neg then -(I * fp_scale D + Fr) else I * fp_scale D + Fr) := by
  have hs10 : fp_scale D = (10 : Int) ^ D := rfl
  have hsc : (0 : Int) < fp_scale D := by rw [hs10]; positivity
  have hfnat : Fr.natAbs < 10 ^ D := by
    have h1 : (Fr.natAbs : Int) < ((10 ^ D : Nat) : Int) := by
      rw [Int.natAbs_of_nonneg hF0]
      push_cast
      rw [← hs10]
      exact hFs
    exact_mod_cast h1
  obtain ⟨hq, hr⟩ := tdiv_decomp hI hF0 hFs
  cases neg with
  | false =>
    simp only [Bool.false_eq_true, if_false]
    simp only [fp_print]
    rw [hq, hr]
    rw [show intChars I = natChars I.natAbs from by
      unfold intChars; rw [if_neg (not_lt.mpr hI)]]
    have hhead : (natChars I.natAbs ++
        (if Fr.natAbs ≠ 0 then
          '.' :: (List.replicate (D - (natChars Fr.natAbs).length) '0' ++ natChars Fr.natAbs)
        else [])).head? ≠ some '-' := by
      obtain ⟨c, t, hct⟩ := List.exists_cons_of_ne_nil (natChars_ne_nil I.natAbs)
      have hcdig : isDigitCh c = true := by
        have hx := natChars_all I.natAbs
        rw [hct] at hx
        simp only [List.all_cons, Bool.and_eq_true] at hx
        exact hx.1
      rw [hct]
      simp only [List.cons_append, List.head?_cons, Option.some.injEq]
      intro hcon
      exact isDigit_ne_minus hcdig (Option.some.inj hcon)
    rw [decLit_of_head_ne D _ hhead]
    rw [decBody_print D hD I.natAbs Fr.natAbs hfnat]
    rw [Int.natAbs_of_nonneg hI, Int.natAbs_of_nonneg hF0, hs10]
  | true =>
    by_cases hI0 : I = 0
    · have hFr0 : Fr = 0 := hns rfl hI0
      subst hI0
      subst hFr0
      simp only [zero_mul, add_zero, neg_zero, eq_self_iff_true, if_true]
      simp only [fp_print]
      rw [Int.zero_tdiv, Int.zero_tmod]
      rw [show intChars 0 = natChars (0 : Int).natAbs from by
        unfold intChars; rw [if_neg (by omega)]]
      have hz : ((0 : Int).natAbs : Nat) = 0 := rfl
      rw [hz]
      have hhead : (natChars 0 ++
          (if (0 : Nat) ≠ 0 then
            '.' :: (List.replicate (D - (natChars 0).length) '0' ++ natChars 0)
          else [])).head? ≠ some '-' := by
        simp [natChars]
      rw [decLit_of_head_ne D _ hhead]
      rw [decBody_print D hD 0 0 (by positivity)]
      simp
    · have hI1 : 0 < I := lt_of_le_of_ne hI (Ne.symm hI0)
      simp only [eq_self_iff_true, if_true]
      have hqneg : (-(I * fp_scale D + Fr)).tdiv (fp_scale D) = -I := by
        rw [Int.neg_tdiv, hq]
      have hrneg : (-(I * fp_scale D + Fr)).tmod (fp_scale D) = -Fr := by
        rw [neg_tmod_eq, hr]
      simp only [fp_print]
      rw [hqneg, hrneg]
      rw [show intChars (-I) = '-' :: natChars ((-I).natAbs) from by
        unfold intChars; rw [if_pos (by omega)]]
      rw [show ((-I).natAbs : Nat) = I.natAbs from by simp]
      rw [show ((-Fr).natAbs : Nat) = Fr.natAbs from by simp]
      rw [List.cons_append]
      rw [decLit_neg D _]
      rw [decBody_print D hD I.natAbs Fr.natAbs hfnat]
      simp only [Option.map_some']
      rw [Int.natAbs_of_nonneg hI, Int.natAbs_of_nonneg hF0, hs10]

theorem integral_min_neg {D : Nat} (h1 : 1 ≤ D) (h9 : D ≤ 9) : integral_min D < 0 := by
  interval_cases D <;> decide

theorem fp_parse_decomp (D : Nat) (hD1 : 1 ≤ D) (hD9 : D ≤ 9) (neg : Bool)
    (intCs fracCs : List Char) (h1 : intCs ≠ []) (h2 : intCs.all isDigitCh = true)
    (h3 : fracCs.all isDigitCh = true) (h4 : fracCs.length ≤ D)
    (h5 : charsVal intCs ≤ integral_max D) :
    fp_parse D ⟨(if neg then ['-'] else []) ++ intCs ++ '.' :: fracCs⟩
      = .ok ((if neg then (-1 : Int) else 1) *
          (charsVal intCs * fp_scale D + charsVal fracCs * 10 ^ (D - fracCs.length)), []) := by
  have hnodot : ∀ c ∈ intCs, c ≠ '.' := fun c hc =>
    isDigit_ne_dot (List.all_eq_true.mp h2 c hc)
  have hmin := integral_min_neg hD1 hD9
  have hnn := charsVal_nonneg h2
  obtain ⟨c0, t0, hct⟩ := List.exists_cons_of_ne_nil h1
  have hc0dig : isDigitCh c0 = true := by
    rw [hct] at h2
    simp only [List.all_cons, Bool.and_eq_true] at h2
    exact h2.1
  have hdneg : (decide ((intCs ++ '.' :: fracCs).head? = some '-')) = false := by
    rw [hct]
    simp only [List.cons_append, List.head?_cons, Option.some.injEq,
      decide_eq_false_iff_not]
    exact isDigit_ne_minus hc0dig
  have hEmp : intCs.isEmpty = false := by
    rw [hct]
    rfl
  have hTake : (fracCs.take D).all isDigitCh = true :=
    List.all_eq_true.mpr fun x hx => List.all_eq_true.mp h3 x (List.mem_of_mem_take hx)
  have hBound : ¬(charsVal intCs < integral_min D ∨ charsVal intCs > integral_max D) := by
    rw [not_or]
    constructor
    · omega
    · omega
  cases neg with
  | false =>
    simp only [Bool.false_eq_true, if_false, List.nil_append]
    simp only [fp_parse]
    rw [hdneg]
    simp only [Bool.false_eq_true, if_false]
    rw [breakAtDot_split fracCs hnodot]
    dsimp only
    rw [if_neg (by rw [hEmp]; exact Bool.false_ne_true)]
    rw [h2]
    simp only [Bool.not_true, Bool.false_eq_true, if_false]
    rw [intLoopVal_eq]
    rw [if_neg hBound]
    rw [hTake]
    simp only [Bool.not_true, Bool.false_eq_true, if_false, Bool.false_and]
    rw [fracLoop_eq D fracCs 0 (by omega)]
    simp only [Nat.sub_zero, one_mul]
  | true =>
    simp only [eq_self_iff_true, if_true, List.singleton_append, List.cons_append]
    simp only [fp_parse]
    simp only [List.head?_cons, Option.some.injEq, decide_eq_true_eq,
      eq_self_iff_true, if_true, List.nil_append, List.tail_cons]
    rw [breakAtDot_split fracCs hnodot]
    dsimp only
    rw [if_neg (by rw [hEmp]; exact Bool.false_ne_true)]
    rw [h2]
    simp only [Bool.not_true, Bool.false_eq_true, if_false]
    rw [intLoopVal_eq]
    rw [if_neg hBound]
    rw [hTake]
    simp only [Bool.not_true, Bool.false_eq_true, if_false, Bool.false_and]
    rw [fracLoop_eq D fracCs 0 (by omega)]
    simp only [Nat.sub_zero, Except.ok.injEq, Prod.mk.injEq]
    exact ⟨by ring, trivial⟩

theorem decLit_decomp (D : Nat) (neg : Bool) (intCs fracCs : List Char)
    (h1 : intCs ≠ []) (h2 : intCs.all isDigitCh = true) (h3 : fracCs.all isDigitCh = true)
    (h4 : fracCs.length ≤ D) :
    decLiteralValue D ⟨(if neg then ['-'] else []) ++ intCs ++ '.' :: fracCs⟩
      = some ((if neg then (-1 : Int) else 1) *
          (charsVal intCs * 10 ^ D + charsVal fracCs * 10 ^ (D - fracCs.length))) := by
  have hnodot : ∀ c ∈ intCs, c ≠ '.' := fun c hc =>
    isDigit_ne_dot (List.all_eq_true.mp h2 c hc)
  have hbody : decBody D (intCs ++ '.' :: fracCs)
      = some (charsVal intCs * 10 ^ D + charsVal fracCs * 10 ^ (D - fracCs.length)) := by
    unfold decBody
    rw [breakAtDot_split fracCs hnodot]
    dsimp only
    rw [if_pos ⟨h1, h2, h3, h4⟩]
  obtain ⟨c0, t0, hct⟩ := List.exists_cons_of_ne_nil h1
  have hc0dig : isDigitCh c0 = true := by
    rw [hct] at h2
    simp only [List.all_cons, Bool.and_eq_true] at h2
    exact h2.1
  cases neg with
  | false =>
    simp only [Bool.false_eq_true, if_false, List.nil_append]
    rw [decLit_of_head_ne D _ (by
      rw [hct]
      simp only [List.cons_append, List.head?_cons, ne_eq, Option.some.injEq]
      exact isDigit_ne_minus hc0dig)]
    rw [hbody]
    simp only [one_mul]
  | true =>
    simp only [eq_self_iff_true, if_true, List.singleton_append, List.cons_append,
      List.nil_append]
    rw [decLit_neg D _]
    rw [hbody]
    simp only [Option.map_some']
    rw [neg_one_mul]

/-- C4 (amended): for every valid decimal literal `-?I.F` whose integral
part is within `integral_max` and which has at most D fractional digits —
excluding the negative-with-zero-integral-part literals exhibited by the
counterexample, whose printed form drops the sign — `parse_decimal<D>`
yields the exact scaled mantissa, and printing that mantissa reproduces the
literal's exact numeric value. -/
theorem C4_roundtrip_amended (D : Nat) (hD1 : 1 ≤ D) (hD9 : D ≤ 9) (neg : Bool)
    (intCs fracCs : List Char) (h1 : intCs ≠ []) (h2 : intCs.all isDigitCh = true)
    (h3 : fracCs.all isDigitCh = true) (h4 : fracCs.length ≤ D)
    (h5 : charsVal intCs ≤ integral_max D)
    (hsign : neg = true → charsVal intCs = 0 → charsVal fracCs = 0) :
    fp_parse D ⟨(if neg then ['-'] else []) ++ intCs ++ '.' :: fracCs⟩
      = .ok ((if neg then (-1 : Int) else 1) *
          (charsVal intCs * fp_scale D + charsVal fracCs * 10 ^ (D - fracCs.length)), [])
    ∧ decLiteralValue D ⟨(if neg then ['-'] else []) ++ intCs ++ '.' :: fracCs⟩
      = some ((if neg then (-1 : Int) else 1) *
          (charsVal intCs * fp_scale D + charsVal fracCs * 10 ^ (D - fracCs.length)))
    ∧ decLiteralValue D (fp_print D ((if neg then (-1 : Int) else 1) *
          (charsVal intCs * fp_scale D + charsVal fracCs * 10 ^ (D - fracCs.length))))
      = some ((if neg then (-1 : Int) else 1) *
          (charsVal intCs * fp_scale D + charsVal fracCs * 10 ^ (D - fracCs.length))) := by
  have hsc : fp_scale D = (10 : Int) ^ D := rfl
  refine ⟨fp_parse_decomp D hD1 hD9 neg intCs fracCs h1 h2 h3 h4 h5, ?_, ?_⟩
  · rw [decLit_decomp D neg intCs fracCs h1 h2 h3 h4, hsc]
  · have hmeq : ∀ X : Int, (if neg then (-1 : Int) else 1) * X = (if neg then -X else X) := by
      intro X
      cases neg <;> simp
    have hFs : charsVal fracCs * 10 ^ (D - fracCs.length) < fp_scale D := by
      have hlt := charsVal_lt h3
      have hp : (0 : Int) < 10 ^ (D - fracCs.length) := by positivity
      calc charsVal fracCs * 10 ^ (D - fracCs.length)
          < 10 ^ fracCs.length * 10 ^ (D - fracCs.length) :=
            mul_lt_mul_of_pos_right hlt hp
        _ = (10 : Int) ^ (fracCs.length + (D - fracCs.length)) := by rw [pow_add]
        _ = fp_scale D := by rw [hsc]; congr 1; omega
    have hns : neg = true → charsVal intCs = 0 →
        charsVal fracCs * 10 ^ (D - fracCs.length) = 0 := by
      intro hneg hI0
      rw [hsign hneg hI0, zero_mul]
    rw [hmeq]
    exact print_parse D hD1 (charsVal intCs) (charsVal fracCs * 10 ^ (D - fracCs.length))
      (charsVal_nonneg h2)
      (mul_nonneg (charsVal_nonneg h3) (by positivity)) hFs neg hns

/-- Witness for C4 (amended) at the spec's example: `parse_decimal<3>` of
"12345.1" yields mantissa 12345100 and prints back to the value 12345.1. -/
theorem C4_roundtrip_amended_witness :
    fp_parse 3 ⟨(if false then ['-'] else []) ++ ['1', '2', '3', '4', '5'] ++ '.' :: ['1']⟩
      = .ok ((if false then (-1 : Int) else 1) *
          (charsVal ['1', '2', '3', '4', '5'] * fp_scale 3
            + charsVal ['1'] * 10 ^ (3 - (['1'] : List Char).length)), [])
    ∧ decLiteralValue 3 ⟨(if false then ['-'] else []) ++ ['1', '2', '3', '4', '5'] ++ '.' :: ['1']⟩
      = some ((if false then (-1 : Int) else 1) *
          (charsVal ['1', '2', '3', '4', '5'] * fp_scale 3
            + charsVal ['1'] * 10 ^ (3 - (['1'] : List Char).length)))
    ∧ decLiteralValue 3 (fp_print 3 ((if false then (-1 : Int) else 1) *
          (charsVal ['1', '2', '3', '4', '5'] * fp_scale 3
            + charsVal ['1'] * 10 ^ (3 - (['1'] : List Char).length))))
      = some ((if false then (-1 : Int) else 1) *
          (charsVal ['1', '2', '3', '4', '5'] * fp_scale 3
            + charsVal ['1'] * 10 ^ (3 - (['1'] : List Char).length))) :=
  C4_roundtrip_amended 3 (by decide) (by decide) false ['1', '2', '3', '4', '5'] ['1']
    (by decide) (by decide) (by decide) (by decide) (by decide) (by decide)
